import Mathlib

/-!
Verification of the correspondence engines of the `Shaconank/image-classifier`
repository against its natural-language specification.

Two source files carry the algorithmic content:

* `src/src/backpamming.py` — `UltrasoundRemapper`: a content-hash index over an
  original corpus (`build_hash_index`) and an exact-correspondence resolver
  (`find_matching_original`).
* `src/src/main.py` — `MedicalImageApp`: ORB-feature pairwise scoring
  (`_score_pair_orb`), raw/ground-truth role classification (`_assign_raw_gt`)
  and the greedy correspondence assigner (`_make_recommendations`).

The embedding below is shallow: Python dicts become association lists in
insertion order, the file system becomes an explicit record of total functions,
machine integers become `Nat`, and the two third-party calls whose numerics are
outside this repository (`imagehash.phash`'s DCT core and
`cv2.findHomography`'s RANSAC fit) are modelled at the exact granularity the
claims need, as documented at their definitions.
-/

/-! ## Decoded images (PIL `Image` objects as the repository uses them) -/

/-- A decoded image: width, height and the flat row-major pixel list as
returned by PIL's `Image.getdata()` on an RGB image.  `backpamming.py` only
ever consumes a decoded image through `imagehash.phash`, `img.size` and
`list(img.getdata())`. -/
structure Img where
  w : Nat
  h : Nat
  pix : List (Nat × Nat × Nat)
deriving DecidableEq, Repr

/-- PIL's RGB→L (grayscale) conversion, from `ImagingConvert.c`:
`L = (R*19595 + G*38470 + B*7471) >> 16` (the integer fixed-point form of
`R*299/1000 + G*587/1000 + B*114/1000`). -/
def rgb2l (p : Nat × Nat × Nat) : Nat :=
  (p.1 * 19595 + p.2.1 * 38470 + p.2.2 * 7471) >>> 16

/-- The PIL `convert("L")` step that `imagehash.phash` performs first: the
grayscale pixel grid of the image, dimensions preserved. -/
def convertL (i : Img) : Nat × Nat × List Nat :=
  (i.w, i.h, i.pix.map rgb2l)

/-- A rendering of a grayscale grid as a string key. -/
def renderGray (g : Nat × Nat × List Nat) : String :=
  toString g.1 ++ "x" ++ toString g.2.1 ++ ":" ++ toString g.2.2

/-- The remainder of `imagehash.phash` after grayscale conversion.  The real
library downscales the grayscale grid to 32×32 with Lanczos resampling,
applies a 2-D discrete cosine transform, thresholds the top-left 8×8
coefficients at their median and renders 16 hex digits.  Every one of those
steps is a fixed deterministic function of the grayscale grid alone; the
floating-point computation itself is library code outside this repository, so
it is modelled here by an injective rendering of the grayscale grid.  The
model is conservative for collision exhibits: it identifies two images exactly
when their grayscale conversions coincide, whereas the real DCT core (being a
function of the same grid) identifies at least those, so every digest
collision proved below is also a collision of the real `phash`. -/
def phashGrayCore (g : Nat × Nat × List Nat) : String :=
  renderGray g

/-- The digest `str(imagehash.phash(img))` as called at `backpamming.py` lines 110–113 and
142–143: grayscale conversion followed by the gray-only hash core. -/
def phashModel (i : Img) : String :=
  phashGrayCore (convertL i)

/-! ## File-system model for `UltrasoundRemapper` -/

/-- The slice of the file system that `build_hash_index` and
`find_matching_original` consult: `Path.exists()` and
`PIL.Image.open` (where `none` models an open/decode failure, i.e. the
exception caught by the surrounding `try`). -/
structure FS where
  pathExists : String → Bool
  openImg : String → Option Img

/-- The `pathlib` join `folder / name` as it appears after the separator
normalization in `build_hash_index`. -/
def joinPath (dir file : String) : String := dir ++ "/" ++ file

/-- Python `str.replace('\\', '/')` on the folder path. -/
def backToFwd (l : List Char) : List Char :=
  l.map fun c => if c = '\\' then '/' else c

/-- Python `str.replace('//', '/')`: it replaces non-overlapping occurrences left
to right, resuming after each replacement. -/
def collapseSlash : List Char → List Char
  | [] => []
  | '/' :: '/' :: t => '/' :: collapseSlash t
  | c :: t => c :: collapseSlash t

/-- The folder-path normalization at the top of the `build_hash_index` loop:
`folder_path.replace('\\', '/').replace('//', '/')`. -/
def normalizeFolder (s : String) : String :=
  (collapseSlash (backToFwd s.data)).asString

/-- The call `png_file.replace('.png', '')`: delete every occurrence of `".png"`,
scanning left to right. -/
def stripPng : List Char → List Char
  | '.' :: 'p' :: 'n' :: 'g' :: t => stripPng t
  | c :: t => c :: stripPng t
  | [] => []

/-- The `base_name` derivation in `build_hash_index`. -/
def baseNameOf (pngFile : String) : String :=
  (stripPng pngFile.data).asString

/-- One entry of `self.hash_index`: base name, the triplet's three paths and
`original_path` (which the code sets to the png path). -/
structure HashEntry where
  base_name : String
  png : String
  json : String
  dicom : String
  original_path : String
deriving DecidableEq, Repr

/-- Python-dict insertion on an association list: overwrite the value in place
if the key is present (dict keeps first-insertion position), else append. -/
def dictInsert (k : String) (v : HashEntry) : List (String × HashEntry) → List (String × HashEntry)
  | [] => [(k, v)]
  | (k', v') :: t => if k' = k then (k, v) :: t else (k', v') :: dictInsert k v t

/-- First-match association-list lookup (`hash_key in self.hash_index` /
`self.hash_index[hash_key]`; keys are unique by construction). -/
def lookupIdx (k : String) : List (String × HashEntry) → Option HashEntry
  | [] => none
  | (k', v) :: t => if k' = k then some v else lookupIdx k t

/-- The per-file body of the `build_hash_index` inner loop
(`backpamming.py` lines 71–127): existence check on the png, base-name
derivation, the `_anon.dcm` sidecar with the plain `.dcm` fallback tried in
that fixed order, the all-three-exist triplet check, and the hash computation
whose failure (`except`) skips the file.  Returns the `digest ↦ entry`
insertion, or `none` when the file is skipped. -/
def processFile (fs : FS) (folder pngFile : String) : Option (String × HashEntry) :=
  let pngPath := joinPath folder pngFile
  if ¬ fs.pathExists pngPath then none
  else
    let base := baseNameOf pngFile
    let jsonPath := joinPath folder (base ++ ".json")
    let anonPath := joinPath folder (base ++ "_anon.dcm")
    let altPath := joinPath folder (base ++ ".dcm")
    let dicomPath :=
      if fs.pathExists anonPath then anonPath
      else if fs.pathExists altPath then altPath
      else anonPath
    if ¬ (fs.pathExists pngPath ∧ fs.pathExists jsonPath ∧ fs.pathExists dicomPath) then none
    else
      match fs.openImg pngPath with
      | none => none
      | some img => some (phashModel img, ⟨base, pngPath, jsonPath, dicomPath, pngPath⟩)

/-- The per-folder file loop: index every file that survives `processFile`,
inserting into the accumulated dict. -/
def processFolder (fs : FS) (folder : String) (files : List String)
    (acc : List (String × HashEntry)) : List (String × HashEntry) :=
  files.foldl (fun a f =>
    match processFile fs folder f with
    | none => a
    | some (k, v) => dictInsert k v a) acc

/-- Model of `UltrasoundRemapper.build_hash_index` (`backpamming.py` lines 46–133) as a
function of the file system and the JSON mapping `{folder ↦ [png files]}` (an
association list in file order, as `json.load` yields it): normalize each
folder path, skip folders that do not exist, and run the per-file loop on the
rest. -/
def build_hash_index (fs : FS) (data : List (String × List String)) : List (String × HashEntry) :=
  data.foldl (fun acc fd =>
    let folder := normalizeFolder fd.1
    if fs.pathExists folder then processFolder fs folder fd.2 acc else acc) []

/-! ## `find_matching_original` -/

/-- The pixel-by-pixel fallback loop of `find_matching_original`
(`backpamming.py` lines 150–176): walk the index in order, re-open each
candidate's png (an open failure just moves on), and return the first
candidate with identical size and identical `getdata()` pixel list.  The
second component counts the candidates examined, the cost the specification
says this resolver must not incur. -/
def pixelScan (fs : FS) (img : Img) : List (String × HashEntry) → Option HashEntry × Nat
  | [] => (none, 0)
  | (_, e) :: t =>
    let rest := pixelScan fs img t
    match fs.openImg e.png with
    | none => (rest.1, rest.2 + 1)
    | some o =>
      if img.w = o.w ∧ img.h = o.h ∧ img.pix = o.pix then (some e, 1)
      else (rest.1, rest.2 + 1)

/-- Model of `UltrasoundRemapper.find_matching_original` (`backpamming.py` lines
135–184), instrumented with the number of pixel-comparison candidates
examined: open the query image (any failure returns `none` through the
enclosing `except`), hash it, try the exact index lookup, and on a miss run
the pixel-by-pixel fallback scan over the whole index. -/
def find_matching_original (fs : FS) (idx : List (String × HashEntry))
    (path : String) : Option HashEntry × Nat :=
  match fs.openImg path with
  | none => (none, 0)
  | some img =>
    match lookupIdx (phashModel img) idx with
    | some e => (some e, 0)
    | none => pixelScan fs img idx

/-- The resolver as §4.2 of the specification describes it: compute the
fingerprint, perform a single index lookup, and report a miss verbatim as
unmatched, with no fallback search of any kind.  (Second definition for the
refinement comparison; written from the spec's words, not from the code.) -/
def resolveSpecDescribed (fs : FS) (idx : List (String × HashEntry))
    (path : String) : Option HashEntry :=
  match fs.openImg path with
  | none => none
  | some img => lookupIdx (phashModel img) idx

/-! ## `main.py`: ORB features, pairwise scorer, role classifier, assigner -/

/-- One ORB feature: keypoint location (`kp.pt`, pixel coordinates) paired
with its binary descriptor.  `cv2` stores keypoints and descriptors in two
parallel arrays; the pairing is the same data. -/
structure Feat where
  pt : Nat × Nat
  desc : List Bool
deriving DecidableEq, Repr

/-- The `cv2.NORM_HAMMING` distance between two binary descriptors: the number of bit
positions where they differ. -/
def hamming (a b : List Bool) : Nat :=
  (a.zip b).countP fun p => p.1 != p.2

/-- The distances from one query descriptor to every train feature, in train
order. -/
def distList (d : List Bool) (l : List Feat) : List Nat :=
  l.map fun f => hamming d f.desc

/-- One call of `bf.knnMatch(desc1, desc2, k=2)` for a single query descriptor: the train
index of the nearest neighbour (lowest index on ties, matching the matcher's
stable selection), its distance, and the second-nearest distance.  When the
train set has fewer than two descriptors the result has fewer than two
neighbours, which `_score_pair_orb` discards (`len(m_n) != 2`); that case is
`none` here. -/
def knn2 (d : List Bool) (l : List Feat) : Option (Nat × Nat × Nat) :=
  match (distList d l).min? with
  | none => none
  | some d1 =>
    match ((distList d l).eraseIdx ((distList d l).indexOf d1)).min? with
    | none => none
    | some d2 => some ((distList d l).indexOf d1, d1, d2)

/-- Placeholder feature for the (provably in-bounds) train lookup. -/
def defaultFeat : Feat := ⟨(0, 0), []⟩

/-- The Lowe ratio-test loop of `_score_pair_orb` (`main.py` lines 822–829):
keep the nearest match of each query feature exactly when
`m.distance < 0.75 * n.distance` — distances are integer Hamming counts, so
the float comparison is exactly `4*d1 < 3*d2`.  Matches are returned as
(query feature, matched train feature) pairs in query order. -/
def goodList (l1 l2 : List Feat) : List (Feat × Feat) :=
  l1.filterMap fun a =>
    match knn2 a.desc l2 with
    | none => none
    | some (j, d1, d2) =>
      if 4 * d1 < 3 * d2 then some (a, l2.getD j defaultFeat) else none

/-- The type of the homography-fitting call
`cv2.findHomography(src, dst, cv2.RANSAC, 5.0)`: from the matched source and
destination point lists, either `none` (no homography could be fit; the code's
`mask is None`) or the per-match inlier mask. -/
def HFit : Type :=
  List (Nat × Nat) → List (Nat × Nat) → Option (List Bool)

/-- The sum `int(mask.sum())`: the number of inliers flagged in the mask. -/
def maskCount (m : List Bool) : Nat := m.countP id

/-- Model of `MedicalImageApp._score_pair_orb` (`main.py` lines 816–840),
parameterized by the homography fitter `findH` standing for
`cv2.findHomography(·, ·, cv2.RANSAC, 5.0)` — RANSAC with the 5-pixel inlier
threshold, exactly the literal arguments at line 837.  `none` descriptor sets
model `desc is None` (no features detected). -/
def score_pair_orb (findH : HFit) (f1 f2 : Option (List Feat)) : Nat :=
  match f1, f2 with
  | some l1, some l2 =>
    if l1.length < 8 ∨ l2.length < 8 then 0
    else
      let good := goodList l1 l2
      if good.length < 8 then 0
      else
        match findH (good.map fun g => g.1.pt) (good.map fun g => g.2.pt) with
        | none => 0
        | some mask => maskCount mask
  | _, _ => 0

/-- Degeneracy test on a point triple: the three points lie on one line (this
also holds when two of them coincide).  OpenCV's RANSAC registrator rejects
every minimal sample containing such a triple (`checkSubset` /
`haveCollinearPoints`). -/
def collinearB (p q r : Nat × Nat) : Bool :=
  ((q.1 : Int) - (p.1 : Int)) * ((r.2 : Int) - (p.2 : Int)) ==
    ((r.1 : Int) - (p.1 : Int)) * ((q.2 : Int) - (p.2 : Int))

/-- No pair drawn from the tail forms a collinear triple with the head
point. -/
def noCollinearWith (p : Nat × Nat) : List (Nat × Nat) → Bool
  | [] => true
  | q :: t => (t.all fun r => !(collinearB p q r)) && noCollinearWith p t

/-- General position: no three of the points are collinear (in particular all
points are pairwise distinct). -/
def generalPosition : List (Nat × Nat) → Bool
  | [] => true
  | p :: t => noCollinearWith p t && generalPosition t

/-- Modelled from the spec: `cv2.findHomography`'s contract in the exact-fit,
general-position case — when the destination points equal the source points,
there are at least 4 of them, and no three are collinear, every 4-point
minimal sample passes OpenCV's degeneracy check (`checkSubset` rejects
samples with a collinear triple), each sample determines the identity
homography uniquely, and every correspondence then has zero reprojection
error, so the returned mask flags all points as inliers under the 5-pixel
threshold.  Every other configuration — in particular any set containing a
collinear triple, which OpenCV refuses to sample — is conservatively
reported as unfittable.  Used only to instantiate the abstract fitter on
concrete inputs whose source and destination points coincide in general
position, where the real `cv2` call returns an all-inlier mask. -/
def findHomographyId : HFit := fun src dst =>
  if 4 ≤ src.length ∧ src = dst ∧ generalPosition src then
    some (List.replicate src.length true)
  else none

/-- One value of the per-image cache built by `MedicalImageApp._build_index`
(`main.py` lines 859–889): the ORB features (`none` when `detectAndCompute`
produced no descriptors), the cached area (taken from the *downscaled* gray
image, see `prep_gray_dims`), the yellow-annotation statistics and the
filename ground-truth hint.  The unused `yellow_frac` field is omitted: no
modelled operation reads it. -/
structure IdxEntry where
  feat : Option (List Feat)
  area : Nat
  hasYellow : Bool
  yellowCount : Nat
  nameGtHint : Bool
deriving DecidableEq, Repr

/-- The resize arithmetic of `MedicalImageApp._prep_gray` (`main.py` lines
803–810) on an image of pixel dimensions `h × w`:
`scale = min(1.0, 900 / max(h, w))`, and when `scale < 1` the image is resized
to `(int(w*scale), int(h*scale))`.  With exact arithmetic the truncations are
the natural-number divisions below; the concrete dimensions used in theorems
about this definition are chosen so that `900 / max(h, w)` is exactly
representable in binary floating point and the two computations agree
digit-for-digit. -/
def prep_gray_dims (h w : Nat) : Nat × Nat :=
  let m := max h w
  if m ≤ 900 then (h, w)
  else (h * 900 / m, w * 900 / m)

/-- The `"area"` value that `_build_index` caches (`main.py` lines 886–889):
`h, w = gray.shape[:2]; area = int(h * w)` — computed from the downscaled
gray image, not from the original. -/
def indexedArea (h w : Nat) : Nat :=
  (prep_gray_dims h w).1 * (prep_gray_dims h w).2

/-- Model of `MedicalImageApp._assign_raw_gt` (`main.py` lines 891–926): the role
cascade returning `(raw_path, gt_path)` for paths `p1, p2` with cached
entries `a, b`. -/
def assign_raw_gt (p1 p2 : String) (a b : IdxEntry) : String × String :=
  if a.hasYellow ≠ b.hasYellow then
    if a.hasYellow then (p2, p1) else (p1, p2)
  else if a.area ≠ b.area then
    if a.area < b.area then (p2, p1) else (p1, p2)
  else if a.yellowCount ≠ b.yellowCount then
    if b.yellowCount < a.yellowCount then (p2, p1) else (p1, p2)
  else if a.nameGtHint ≠ b.nameGtHint then
    if a.nameGtHint then (p2, p1) else (p1, p2)
  else if p1 < p2 then (p1, p2) else (p2, p1)

/-- One recommendation record `{"score": sc, "raw": raw, "gt": gt}`. -/
structure Reco where
  score : Nat
  raw : String
  gt : String
deriving DecidableEq, Repr

/-- Stable descending insertion: the new record goes after every record with
a score at least as large. -/
def insertDesc (r : Reco) : List Reco → List Reco
  | [] => [r]
  | x :: xs => if x.score < r.score then r :: x :: xs else x :: insertDesc r xs

/-- The sort `pairs.sort(key=lambda r: r["score"], reverse=True)`: Python's sort is
stable, so records with equal scores keep their generation order. -/
def sortDesc (l : List Reco) : List Reco :=
  l.foldl (fun acc r => insertDesc r acc) []

/-- The `i < j` pair enumeration of `_make_recommendations`: every unordered
pair exactly once, first component earlier in the list. -/
def allPairs {α : Type} : List α → List (α × α)
  | [] => []
  | x :: xs => xs.map (fun y => (x, y)) ++ allPairs xs

/-- The scoring loop of `_make_recommendations` (`main.py` lines 936–956):
score every `i < j` pair and keep those reaching `MIN_INLIERS = 15`, assigning
roles via `_assign_raw_gt`. -/
def candidatePairs (findH : HFit) (idx : List (String × IdxEntry)) : List Reco :=
  (allPairs idx).filterMap fun pq =>
    let sc := score_pair_orb findH pq.1.2.feat pq.2.2.feat
    if 15 ≤ sc then
      let rg := assign_raw_gt pq.1.1 pq.2.1 pq.1.2 pq.2.2
      some ⟨sc, rg.1, rg.2⟩
    else none

/-- The greedy unique-assignment loop of `_make_recommendations` (`main.py`
lines 961–971): walk the ranked list, skip any record one of whose paths is
already claimed, otherwise accept it and claim both paths, stopping once the
shortlist reaches the cap (`room` counts the remaining capacity; the source
breaks right after the 100th acceptance). -/
def greedyPick : List String → Nat → List Reco → List Reco
  | _, _, [] => []
  | used, room, r :: rest =>
    if r.raw ∈ used ∨ r.gt ∈ used then greedyPick used room rest
    else if room ≤ 1 then [r]
    else r :: greedyPick (r.raw :: r.gt :: used) (room - 1) rest

/-- Model of `MedicalImageApp._make_recommendations` (`main.py` lines 928–974) as a
function of the per-image cache (association list in Python-dict insertion
order) and the homography fitter: score all unordered pairs, rank descending
by score, and greedily commit a conflict-free shortlist capped at 100. -/
def make_recommendations (findH : HFit) (idx : List (String × IdxEntry)) : List Reco :=
  greedyPick [] 100 (sortDesc (candidatePairs findH idx))

/-- All paths mentioned by a recommendation list, raw and ground-truth alike. -/
def pathsOf : List Reco → List String
  | [] => []
  | r :: t => r.raw :: r.gt :: pathsOf t

/-! ## Concrete images and states used by witnesses and counterexamples -/

/-- A 1×1 black image. -/
def imgBlack : Img := ⟨1, 1, [(0, 0, 0)]⟩

/-- A 1×1 image whose single pixel is the almost-black colour RGB(1,0,0):
its PIL grayscale value is `(1*19595) >>> 16 = 0`, the same as black's. -/
def imgDarkRed : Img := ⟨1, 1, [(1, 0, 0)]⟩

/-- A 1×1 white image. -/
def imgWhite : Img := ⟨1, 1, [(255, 255, 255)]⟩

/-- An indexed original triplet for the black image. -/
def entryA : HashEntry :=
  ⟨"a", "orig/a.png", "orig/a.json", "orig/a_anon.dcm", "orig/a.png"⟩

/-- A file system holding the black original and a white query derivative. -/
def fsC2 : FS :=
  ⟨fun s => s == "orig/a.png" || s == "q/w.png",
   fun s =>
     if s == "orig/a.png" then some imgBlack
     else if s == "q/w.png" then some imgWhite
     else none⟩

/-- The hash index over the one-original corpus, keyed exactly as
`build_hash_index` keys it. -/
def idxC2 : List (String × HashEntry) := [(phashModel imgBlack, entryA)]

/-! ## C1 — the fingerprint is not an exact content digest -/

/-- The content-fingerprint property claimed by the specification: two images
receive the same digest only when their pixel content is identical. -/
def contentFingerprintExact : Prop :=
  ∀ i j : Img, phashModel i = phashModel j → i.pix = j.pix

/-- C1 (counterexample): the fingerprint used by the index builder and the
resolver is `imagehash.phash`, a perceptual hash computed after grayscale
conversion, not a cryptographic digest of the 3-channel pixel buffer.  The
1×1 images with pixels RGB(0,0,0) and RGB(1,0,0) have different pixel content
but the same grayscale conversion, hence the same digest. -/
theorem c1_counterexample : ¬ contentFingerprintExact := by
  intro h
  exact absurd (h imgBlack imgDarkRed rfl) (by decide)

/-- C1 (amended): the fingerprint is `imagehash.phash`, which factors through
PIL grayscale conversion — any two images with identical grayscale grids
receive identical digests, regardless of their 3-channel content. -/
theorem c1_perceptual_factoring (i j : Img) (h : convertL i = convertL j) :
    phashModel i = phashModel j := by
  unfold phashModel
  rw [h]

/-- Witness for `c1_perceptual_factoring` at the two concrete 1×1 images. -/
theorem c1_perceptual_factoring_witness :
    convertL imgBlack = convertL imgDarkRed ∧ phashModel imgBlack = phashModel imgDarkRed :=
  ⟨by decide, c1_perceptual_factoring imgBlack imgDarkRed (by decide)⟩

/-! ## C2 — the resolver is not a single index lookup -/

/-- The resolver behaviour claimed by the specification: it agrees with the
single-lookup resolver of §4.2 and examines no pixel-scan candidates at all. -/
def resolverIsSingleLookup : Prop :=
  ∀ (fs : FS) (idx : List (String × HashEntry)) (p : String),
    (find_matching_original fs idx p).1 = resolveSpecDescribed fs idx p ∧
    (find_matching_original fs idx p).2 = 0

/-- C2 (counterexample): on a hash miss the source code does not report the
miss verbatim — it first runs an exact pixel-by-pixel scan over the whole
index.  Resolving the white derivative against the one-entry index over the
black original misses the hash lookup and then examines 1 pixel-scan
candidate, where the claim requires 0. -/
theorem c2_counterexample : ¬ resolverIsSingleLookup := by
  intro h
  exact absurd ((h fsC2 idxC2 "q/w.png").2) (by decide)

/-- C2 (amended): a hash hit is returned from the single lookup with no scan;
on a hash miss the resolver falls back to an exact pixel-by-pixel scan over
every index entry and reports unmatched (`none`) only when that scan also
finds no size-and-pixel-identical entry. -/
theorem c2_amended_resolver (fs : FS) (idx : List (String × HashEntry))
    (p : String) (img : Img) (hopen : fs.openImg p = some img) :
    (∀ e, lookupIdx (phashModel img) idx = some e →
        find_matching_original fs idx p = (some e, 0)) ∧
    (lookupIdx (phashModel img) idx = none →
        find_matching_original fs idx p = pixelScan fs img idx) := by
  constructor
  · intro e he
    simp [find_matching_original, hopen, he]
  · intro he
    simp [find_matching_original, hopen, he]

/-- Witness for `c2_amended_resolver`: the black original resolves by the hash
lookup alone, with zero scan candidates examined. -/
theorem c2_amended_resolver_witness :
    fsC2.openImg "orig/a.png" = some imgBlack ∧
    find_matching_original fsC2 idxC2 "orig/a.png" = (some entryA, 0) :=
  ⟨by decide,
   (c2_amended_resolver fsC2 idxC2 "orig/a.png" imgBlack (by decide)).1 entryA (by decide)⟩

/-! ## C3 — assigner determinism -/

/-- C3: the assigner is a pure function of the image pool — two runs over the
same pool (same paths, same cached content, and the same homography fitter:
OpenCV's RANSAC is seeded with a fixed constant, so
`cv2.findHomography` is itself a function of its inputs) produce the identical
ranked list: same pairs, same raw/ground-truth roles, same scores, same
order. -/
theorem c3_assigner_deterministic (findH : HFit) (idx1 idx2 : List (String × IdxEntry))
    (h : idx1 = idx2) :
    make_recommendations findH idx1 = make_recommendations findH idx2 := by
  rw [h]

/-- Witness for `c3_assigner_deterministic` on a concrete singleton pool. -/
theorem c3_assigner_deterministic_witness :
    [("p/a.png", IdxEntry.mk none 100 false 0 false)] =
      [("p/a.png", IdxEntry.mk none 100 false 0 false)] ∧
    make_recommendations findHomographyId [("p/a.png", IdxEntry.mk none 100 false 0 false)] =
      make_recommendations findHomographyId [("p/a.png", IdxEntry.mk none 100 false 0 false)] :=
  ⟨rfl, c3_assigner_deterministic findHomographyId _ _ rfl⟩

/-! ## C7 — role-classifier totality and exclusivity -/

/-- The classifier always answers with the two inputs in some order. -/
theorem assign_raw_gt_cases (p1 p2 : String) (a b : IdxEntry) :
    assign_raw_gt p1 p2 a b = (p1, p2) ∨ assign_raw_gt p1 p2 a b = (p2, p1) := by
  unfold assign_raw_gt
  repeat' split
  all_goals simp

/-- C7: for any two distinct paths and any metadata the role classifier
terminates (it is a total function) and returns a `(raw, groundTruth)` pair
whose members are exactly the two inputs in some order, hence distinct; and
when every earlier cascade stage ties the lexicographically smaller path is
assigned raw. -/
theorem c7_role_classifier_total (p1 p2 : String) (a b : IdxEntry) (hne : p1 ≠ p2) :
    ((assign_raw_gt p1 p2 a b).1 = p1 ∧ (assign_raw_gt p1 p2 a b).2 = p2 ∨
      (assign_raw_gt p1 p2 a b).1 = p2 ∧ (assign_raw_gt p1 p2 a b).2 = p1) ∧
    (assign_raw_gt p1 p2 a b).1 ≠ (assign_raw_gt p1 p2 a b).2 ∧
    (a.hasYellow = b.hasYellow → a.area = b.area → a.yellowCount = b.yellowCount →
      a.nameGtHint = b.nameGtHint →
      (assign_raw_gt p1 p2 a b).1 = min p1 p2 ∧ (assign_raw_gt p1 p2 a b).2 = max p1 p2) := by
  refine ⟨?_, ?_, ?_⟩
  · rcases assign_raw_gt_cases p1 p2 a b with h | h <;> rw [h] <;> simp
  · rcases assign_raw_gt_cases p1 p2 a b with h | h <;> rw [h]
    · exact hne
    · exact fun hc => hne hc.symm
  · intro h1 h2 h3 h4
    unfold assign_raw_gt
    rw [if_neg (by simp [h1]), if_neg (by simp [h2]), if_neg (by simp [h3]),
      if_neg (by simp [h4])]
    by_cases hlt : p1 < p2
    · rw [if_pos hlt]
      exact ⟨(min_eq_left hlt.le).symm, (max_eq_right hlt.le).symm⟩
    · rw [if_neg hlt]
      have h21 : p2 ≤ p1 := le_of_not_lt hlt
      exact ⟨(min_eq_right h21).symm, (max_eq_left h21).symm⟩

/-- Witness for `c7_role_classifier_total` on two concrete paths with
identical metadata (every cascade stage ties). -/
theorem c7_role_classifier_total_witness :
    ("s/a.png" : String) ≠ "s/b.png" ∧
    (assign_raw_gt "s/a.png" "s/b.png" (IdxEntry.mk none 50 false 0 false)
        (IdxEntry.mk none 50 false 0 false)).1 ≠
      (assign_raw_gt "s/a.png" "s/b.png" (IdxEntry.mk none 50 false 0 false)
        (IdxEntry.mk none 50 false 0 false)).2 :=
  ⟨by decide,
   (c7_role_classifier_total "s/a.png" "s/b.png" _ _ (by decide)).2.1⟩

/-! ## C8 — the cached area is the downscaled area, not the true pixel area -/

/-- Cache entry for a yellow-free 900×1800 image, with the area exactly as
`_build_index` caches it. -/
def entryLarge : IdxEntry := ⟨none, indexedArea 900 1800, false, 0, false⟩

/-- Cache entry for a yellow-free 900×1200 image. -/
def entrySmall : IdxEntry := ⟨none, indexedArea 900 1200, false, 0, false⟩

/-- C8: `_build_index` caches `area` from the gray image *after* the
max-side-900 downscale of `_prep_gray`, so the pixel-area cascade stage
compares downscaled areas, and the downscale inverts the comparison for these
dimensions: the 900×1800 image (true area 1 620 000) is cached at 450×900 =
405 000, the 900×1200 image (true area 1 080 000) at 675×900 = 607 500, and
the classifier marks the truly larger image as ground-truth — contradicting
both the claim and the code's own intent that the resize is purely a speed
optimization. -/
theorem c8_downscaled_area_bug :
    indexedArea 900 1800 = 405000 ∧ indexedArea 900 1200 = 607500 ∧
    900 * 1200 < 900 * 1800 ∧
    (assign_raw_gt "p/large.png" "p/small.png" entryLarge entrySmall).2 = "p/large.png" := by
  decide

/-! ## Structural lemmas about the sorter, the greedy pass and the pair
enumeration -/

/-- Membership after a stable descending insertion. -/
theorem mem_insertDesc {x r : Reco} : ∀ {l : List Reco}, x ∈ insertDesc r l → x = r ∨ x ∈ l
  | [], h => by simpa [insertDesc] using h
  | y :: t, h => by
    rw [insertDesc] at h
    split at h
    · simp only [List.mem_cons] at h ⊢
      tauto
    · simp only [List.mem_cons] at h ⊢
      rcases h with h | h
      · tauto
      · rcases mem_insertDesc h with h | h <;> tauto

/-- Inserting into a descending-sorted list keeps it descending-sorted. -/
theorem sorted_insertDesc {r : Reco} : ∀ {l : List Reco},
    l.Sorted (fun a b => b.score ≤ a.score) →
    (insertDesc r l).Sorted (fun a b => b.score ≤ a.score)
  | [], _ => by simp [insertDesc]
  | y :: t, h => by
    have hy := (List.sorted_cons.mp h).1
    have ht := (List.sorted_cons.mp h).2
    rw [insertDesc]
    split
    · next hlt =>
      refine List.sorted_cons.mpr ⟨?_, h⟩
      intro b hb
      rcases List.mem_cons.mp hb with rfl | hb
      · exact hlt.le
      · exact (hy b hb).trans hlt.le
    · next hge =>
      refine List.sorted_cons.mpr ⟨?_, sorted_insertDesc ht⟩
      intro b hb
      rcases mem_insertDesc hb with rfl | hb
      · exact le_of_not_lt hge
      · exact hy b hb

/-- The ranking sort produces a descending-sorted list. -/
theorem sorted_sortDesc (l : List Reco) :
    (sortDesc l).Sorted (fun a b => b.score ≤ a.score) := by
  have key : ∀ (l acc : List Reco), acc.Sorted (fun a b => b.score ≤ a.score) →
      (l.foldl (fun acc r => insertDesc r acc) acc).Sorted (fun a b => b.score ≤ a.score) := by
    intro l
    induction l with
    | nil => exact fun acc h => h
    | cons r t ih => exact fun acc h => ih _ (sorted_insertDesc h)
  simpa [sortDesc] using key l [] (by simp)

/-- The ranking sort invents no records. -/
theorem mem_sortDesc {x : Reco} {l : List Reco} (h : x ∈ sortDesc l) : x ∈ l := by
  have key : ∀ (l acc : List Reco), x ∈ l.foldl (fun acc r => insertDesc r acc) acc →
      x ∈ acc ∨ x ∈ l := by
    intro l
    induction l with
    | nil => exact fun acc h => Or.inl h
    | cons r t ih =>
      intro acc h
      rcases ih _ h with h | h
      · rcases mem_insertDesc h with rfl | h
        · exact Or.inr (List.mem_cons_self _ _)
        · exact Or.inl h
      · exact Or.inr (List.mem_cons_of_mem _ h)
  unfold sortDesc at h
  rcases key l [] h with h | h
  · simp at h
  · exact h

/-- The greedy pass returns a sublist of its input (order preserved, records
only dropped). -/
theorem greedy_sublist : ∀ (used : List String) (room : Nat) (l : List Reco),
    (greedyPick used room l).Sublist l
  | _, _, [] => by simp [greedyPick]
  | used, room, r :: rest => by
    rw [greedyPick]
    split
    · exact (greedy_sublist used room rest).cons r
    · split
      · exact (List.nil_sublist rest).cons₂ r
      · exact (greedy_sublist _ _ rest).cons₂ r

/-- The greedy shortlist never exceeds the remaining capacity. -/
theorem greedy_length : ∀ (used : List String) (room : Nat) (l : List Reco),
    1 ≤ room → (greedyPick used room l).length ≤ room
  | _, _, [], _ => by simp [greedyPick]
  | used, room, r :: rest, hroom => by
    rw [greedyPick]
    split
    · exact greedy_length used room rest hroom
    · split
      · simpa using hroom
      · next h1 h2 =>
        have := greedy_length (r.raw :: r.gt :: used) (room - 1) rest (by omega)
        simp only [List.length_cons]
        omega

/-- Membership in the flattened path list. -/
theorem mem_pathsOf (q : String) : ∀ (l : List Reco),
    q ∈ pathsOf l ↔ ∃ r ∈ l, q = r.raw ∨ q = r.gt
  | [] => by simp [pathsOf]
  | r :: t => by
    rw [pathsOf]
    simp only [List.mem_cons, mem_pathsOf q t]
    constructor
    · rintro (rfl | rfl | ⟨s, hs, hq⟩)
      · exact ⟨r, Or.inl rfl, Or.inl rfl⟩
      · exact ⟨r, Or.inl rfl, Or.inr rfl⟩
      · exact ⟨s, Or.inr hs, hq⟩
    · rintro ⟨s, rfl | hs, hq⟩
      · rcases hq with rfl | rfl
        · exact Or.inl rfl
        · exact Or.inr (Or.inl rfl)
      · exact Or.inr (Or.inr ⟨s, hs, hq⟩)

/-- Every path mentioned by the greedy shortlist was mentioned by the input
ranking. -/
theorem greedy_paths_subset : ∀ (used : List String) (room : Nat) (l : List Reco) (q : String),
    q ∈ pathsOf (greedyPick used room l) → q ∈ pathsOf l
  | _, _, [], _, h => by simpa [greedyPick] using h
  | used, room, r :: rest, q, h => by
    rw [greedyPick] at h
    rw [pathsOf]
    split at h
    · exact List.mem_cons_of_mem _ (List.mem_cons_of_mem _ (greedy_paths_subset _ _ _ _ h))
    · split at h
      · simp only [pathsOf, List.mem_cons] at h
        rcases h with rfl | rfl | h
        · exact List.mem_cons_self _ _
        · exact List.mem_cons_of_mem _ (List.mem_cons_self _ _)
        · simp [pathsOf] at h
      · rw [pathsOf] at h
        rcases List.mem_cons.mp h with rfl | h
        · exact List.mem_cons_self _ _
        · rcases List.mem_cons.mp h with rfl | h
          · exact List.mem_cons_of_mem _ (List.mem_cons_self _ _)
          · exact List.mem_cons_of_mem _ (List.mem_cons_of_mem _ (greedy_paths_subset _ _ _ _ h))

/-- The greedy pass yields pairwise-distinct paths, all untouched by the
incoming used-set, as long as every record has distinct raw and ground-truth
paths. -/
theorem greedy_nodup : ∀ (l : List Reco) (used : List String) (room : Nat),
    (∀ r ∈ l, r.raw ≠ r.gt) →
    (pathsOf (greedyPick used room l)).Nodup ∧
      ∀ q ∈ pathsOf (greedyPick used room l), q ∉ used
  | [], _, _, _ => by simp [greedyPick, pathsOf]
  | r :: rest, used, room, hl => by
    have hr : r.raw ≠ r.gt := hl r (List.mem_cons_self _ _)
    have hrest : ∀ s ∈ rest, s.raw ≠ s.gt := fun s hs => hl s (List.mem_cons_of_mem _ hs)
    rw [greedyPick]
    split
    · exact greedy_nodup rest used room hrest
    · next hused =>
      push_neg at hused
      split
      · constructor
        · simp [pathsOf, hr]
        · intro q hq
          simp only [pathsOf, List.mem_cons] at hq
          rcases hq with rfl | rfl | hq
          · exact hused.1
          · exact hused.2
          · simp [pathsOf] at hq
      · obtain ⟨ih1, ih2⟩ := greedy_nodup rest (r.raw :: r.gt :: used) (room - 1) hrest
        constructor
        · rw [pathsOf]
          refine List.nodup_cons.mpr ⟨?_, List.nodup_cons.mpr ⟨?_, ih1⟩⟩
          · intro hmem
            rcases List.mem_cons.mp hmem with h | h
            · exact hr h
            · exact ih2 _ h (by simp)
          · intro hmem
            exact ih2 _ hmem (by simp)
        · intro q hq
          rw [pathsOf] at hq
          rcases List.mem_cons.mp hq with rfl | hq
          · exact hused.1
          · rcases List.mem_cons.mp hq with rfl | hq
            · exact hused.2
            · intro hqu
              exact ih2 q hq (by simp [hqu])

/-- Both members of an enumerated pair belong to the pool. -/
theorem allPairs_mem_of_mem {α : Type} : ∀ {l : List α} {x y : α},
    (x, y) ∈ allPairs l → x ∈ l ∧ y ∈ l
  | [], x, y, h => by simp [allPairs] at h
  | a :: t, x, y, h => by
    rw [allPairs] at h
    rcases List.mem_append.mp h with h | h
    · rcases List.mem_map.mp h with ⟨z, hz, hzz⟩
      cases hzz
      exact ⟨List.mem_cons_self _ _, List.mem_cons_of_mem _ hz⟩
    · have := allPairs_mem_of_mem h
      exact ⟨List.mem_cons_of_mem _ this.1, List.mem_cons_of_mem _ this.2⟩

/-- Over a pool with pairwise-distinct keys, the two members of an enumerated
pair have distinct keys. -/
theorem allPairs_fst_ne {α β : Type} [DecidableEq β] (f : α → β) :
    ∀ (l : List α), (l.map f).Nodup → ∀ x y : α, (x, y) ∈ allPairs l → f x ≠ f y
  | [], _, x, y, h => by simp [allPairs] at h
  | a :: t, hnd, x, y, h => by
    rw [List.map_cons] at hnd
    have hnd' := List.nodup_cons.mp hnd
    rw [allPairs] at h
    rcases List.mem_append.mp h with h | h
    · rcases List.mem_map.mp h with ⟨z, hz, hzz⟩
      cases hzz
      intro hfe
      exact hnd'.1 (hfe ▸ List.mem_map_of_mem f hz)
    · exact allPairs_fst_ne f t hnd'.2 x y h

/-- Distinct keys determine the value in an association list. -/
theorem nodup_keys_eq {α : Type} : ∀ {l : List (String × α)}, (l.map Prod.fst).Nodup →
    ∀ {p : String} {e1 e2 : α}, (p, e1) ∈ l → (p, e2) ∈ l → e1 = e2
  | [], _, _, _, _, h1, _ => by simp at h1
  | (q, v) :: t, hnd, p, e1, e2, h1, h2 => by
    rw [List.map_cons] at hnd
    have hnd' := List.nodup_cons.mp hnd
    rcases List.mem_cons.mp h1 with ha | ha <;> rcases List.mem_cons.mp h2 with hb | hb
    · injection ha with hp1 he1
      injection hb with hp2 he2
      rw [he1, he2]
    · injection ha with hp1 he1
      rw [hp1] at hb
      exact absurd (List.mem_map_of_mem Prod.fst hb) hnd'.1
    · injection hb with hp2 he2
      rw [hp2] at ha
      exact absurd (List.mem_map_of_mem Prod.fst ha) hnd'.1
    · exact nodup_keys_eq hnd'.2 ha hb

/-- Where a scored candidate record comes from: an `i < j` pair of the pool
that reached `MIN_INLIERS`, with roles assigned by the classifier. -/
theorem mem_candidatePairs {findH : HFit} {idx : List (String × IdxEntry)} {r : Reco}
    (h : r ∈ candidatePairs findH idx) :
    ∃ pq : (String × IdxEntry) × (String × IdxEntry), pq ∈ allPairs idx ∧
      15 ≤ score_pair_orb findH pq.1.2.feat pq.2.2.feat ∧
      r.score = score_pair_orb findH pq.1.2.feat pq.2.2.feat ∧
      (r.raw, r.gt) = assign_raw_gt pq.1.1 pq.2.1 pq.1.2 pq.2.2 := by
  unfold candidatePairs at h
  rcases List.mem_filterMap.mp h with ⟨pq, hpq, hsome⟩
  dsimp only at hsome
  split at hsome
  · next hsc =>
    have hval := Option.some.inj hsome
    refine ⟨pq, hpq, hsc, ?_, ?_⟩
    · rw [← hval]
    · rw [← hval]
  · exact absurd hsome (by simp)

/-! ## Concrete feature pools for witnesses and counterexamples -/

/-- A 32-bit binary descriptor with ones at the given positions. -/
def mkDesc (ones : List Nat) : List Bool :=
  (List.range 32).map fun i => decide (i ∈ ones)

/-- Sixteen well-separated features: disjoint 2-bit codewords, with keypoints
`(i, i²)` on a strictly convex curve so that no three are collinear. -/
def poolC : List Feat :=
  (List.range 16).map fun i => ⟨(i, i * i), mkDesc [2 * i, 2 * i + 1]⟩

/-- A cache entry whose image yielded the sixteen `poolC` features. -/
def entryC : IdxEntry := ⟨some poolC, 100, false, 0, false⟩

/-- A two-image pool whose images have identical feature sets (so they score
16 exact-fit inliers against each other: every descriptor matches itself at
distance 0 and the coincident keypoints are in general position). -/
def idxW : List (String × IdxEntry) := [("p/a.png", entryC), ("p/b.png", entryC)]

/-- A cache entry whose image produced no descriptors (`desc is None`). -/
def entryNone : IdxEntry := ⟨none, 10, false, 0, false⟩

/-- A pool containing one featureless image and one featureful image. -/
def idxC10 : List (String × IdxEntry) := [("p/f.png", entryNone), ("p/a.png", entryC)]

/-! ## C4 — assigner conflict-freedom, ranking, and cap -/

/-- C4: over any pool with distinct paths (dict keys), the assigner's output
mentions no path twice — every raw and ground-truth path across all committed
Correspondences is distinct — the committed records are emitted in descending
score order, and the result is capped at 100 records. -/
theorem c4_assigner_conflict_free (findH : HFit) (idx : List (String × IdxEntry))
    (hnd : (idx.map Prod.fst).Nodup) :
    (pathsOf (make_recommendations findH idx)).Nodup ∧
    (make_recommendations findH idx).Sorted (fun r s => s.score ≤ r.score) ∧
    (make_recommendations findH idx).length ≤ 100 := by
  have hne : ∀ r ∈ sortDesc (candidatePairs findH idx), r.raw ≠ r.gt := by
    intro r hr
    obtain ⟨pq, hpq, hsc, hscore, heq⟩ := mem_candidatePairs (mem_sortDesc hr)
    have hfst : pq.1.1 ≠ pq.2.1 := allPairs_fst_ne Prod.fst idx hnd pq.1 pq.2 hpq
    rcases assign_raw_gt_cases pq.1.1 pq.2.1 pq.1.2 pq.2.2 with hcase | hcase <;>
      rw [hcase] at heq
    · injection heq with hraw hgt
      rw [hraw, hgt]
      exact hfst
    · injection heq with hraw hgt
      rw [hraw, hgt]
      exact hfst.symm
  unfold make_recommendations
  refine ⟨(greedy_nodup _ [] 100 hne).1, ?_, greedy_length [] 100 _ (by norm_num)⟩
  exact (sorted_sortDesc _).sublist (greedy_sublist [] 100 _)

/-- Witness for `c4_assigner_conflict_free` on the concrete two-image pool. -/
theorem c4_assigner_conflict_free_witness :
    (idxW.map Prod.fst).Nodup ∧
    (pathsOf (make_recommendations findHomographyId idxW)).Nodup ∧
    (make_recommendations findHomographyId idxW).Sorted (fun r s => s.score ≤ r.score) ∧
    (make_recommendations findHomographyId idxW).length ≤ 100 :=
  ⟨by decide,
   (c4_assigner_conflict_free findHomographyId idxW (by decide)).1,
   (c4_assigner_conflict_free findHomographyId idxW (by decide)).2.1,
   (c4_assigner_conflict_free findHomographyId idxW (by decide)).2.2⟩

/-! ## C10 — featureless images score 0 and never appear in the output -/

/-- C10: an image whose feature extraction produced no descriptors, or fewer
than 8, scores 0 against every other feature set (in either argument
position, with no error — the scorer is total), and consequently its path
never appears in any Correspondence emitted by the assigner. -/
theorem c10_featureless_never_matched (findH : HFit) (idx : List (String × IdxEntry))
    (p : String) (e : IdxEntry) (hmem : (p, e) ∈ idx)
    (hnd : (idx.map Prod.fst).Nodup)
    (hfl : e.feat = none ∨ ∃ l, e.feat = some l ∧ l.length < 8) :
    (∀ f2, score_pair_orb findH e.feat f2 = 0 ∧ score_pair_orb findH f2 e.feat = 0) ∧
    p ∉ pathsOf (make_recommendations findH idx) := by
  have hz : ∀ f2, score_pair_orb findH e.feat f2 = 0 ∧ score_pair_orb findH f2 e.feat = 0 := by
    intro f2
    rcases hfl with hn | ⟨l, hsome, hlen⟩
    · rw [hn]
      cases f2 <;> exact ⟨rfl, rfl⟩
    · rw [hsome]
      cases f2 with
      | none => exact ⟨rfl, rfl⟩
      | some l2 =>
        constructor
        · simp only [score_pair_orb]
          rw [if_pos (Or.inl hlen)]
        · simp only [score_pair_orb]
          rw [if_pos (Or.inr hlen)]
  refine ⟨hz, ?_⟩
  intro hp
  unfold make_recommendations at hp
  have hp2 := greedy_paths_subset [] 100 _ p hp
  obtain ⟨r, hr, hor⟩ := (mem_pathsOf p _).mp hp2
  obtain ⟨pq, hpq, hsc, hscore, heq⟩ := mem_candidatePairs (mem_sortDesc hr)
  have hboth := allPairs_mem_of_mem hpq
  have hp12 : p = pq.1.1 ∨ p = pq.2.1 := by
    rcases assign_raw_gt_cases pq.1.1 pq.2.1 pq.1.2 pq.2.2 with hcase | hcase <;>
      rw [hcase] at heq <;> injection heq with hraw hgt <;>
      rcases hor with hq | hq
    · exact Or.inl (hq.trans hraw)
    · exact Or.inr (hq.trans hgt)
    · exact Or.inr (hq.trans hraw)
    · exact Or.inl (hq.trans hgt)
  rcases hp12 with rfl | rfl
  · have he : e = pq.1.2 := nodup_keys_eq hnd hmem hboth.1
    have h0 := (hz pq.2.2.feat).1
    rw [← he] at hsc
    omega
  · have he : e = pq.2.2 := nodup_keys_eq hnd hmem hboth.2
    have h0 := (hz pq.1.2.feat).2
    rw [← he] at hsc
    omega

/-- Witness for `c10_featureless_never_matched`: the featureless image of the
concrete mixed pool never appears in the assigner's output. -/
theorem c10_featureless_never_matched_witness :
    ("p/f.png", entryNone) ∈ idxC10 ∧ (idxC10.map Prod.fst).Nodup ∧
    "p/f.png" ∉ pathsOf (make_recommendations findHomographyId idxC10) :=
  ⟨List.mem_cons_self _ _, by decide,
   (c10_featureless_never_matched findHomographyId idxC10 "p/f.png" entryNone
      (List.mem_cons_self _ _) (by decide) (Or.inl rfl)).2⟩

/-- Inversion of the two-nearest-neighbour computation: a successful `knn2`
returns the least distance, the index of its first occurrence, and the least
remaining distance. -/
theorem knn2_eq_some {d : List Bool} {l : List Feat} {j d1 d2 : Nat}
    (h : knn2 d l = some (j, d1, d2)) :
    (distList d l).min? = some d1 ∧
    j = (distList d l).indexOf d1 ∧
    ((distList d l).eraseIdx ((distList d l).indexOf d1)).min? = some d2 := by
  unfold knn2 at h
  rcases hmin : (distList d l).min? with _ | m1 <;> rw [hmin] at h
  · simp at h
  dsimp only at h
  rcases hmin2 : ((distList d l).eraseIdx ((distList d l).indexOf m1)).min?
      with _ | m2 <;> rw [hmin2] at h
  · simp at h
  dsimp only at h
  have hinj := Option.some.inj h
  have h1 : (distList d l).indexOf m1 = j := congrArg (fun x => x.1) hinj
  have h2 : m1 = d1 := congrArg (fun x => x.2.1) hinj
  have h3 : m2 = d2 := congrArg (fun x => x.2.2) hinj
  subst h2
  subst h3
  exact ⟨rfl, h1.symm, hmin2⟩

/-! ## C5 — the scorer pipeline: ratio test, 8-survivor gate, homography -/

/-- Eight well-separated train features: disjoint 3-bit codewords (pairwise
Hamming distance 6), keypoint `(i, i²)` for codeword `i` — the keypoints lie
on a strictly convex curve, so no three of them are collinear. -/
def poolB : List Feat :=
  (List.range 8).map fun i => ⟨(i, i * i), mkDesc [3 * i, 3 * i + 1, 3 * i + 2]⟩

/-- Nine query features.  The first matches codeword 0 at distance 3 (three
extra bits at 24–26; distance 9 to every other codeword); the next seven
match codewords 1–7 at distance 1 (one extra bit at 24; distance 7 to every
other codeword).  Their keypoints coincide with the matched `poolB`
keypoints.  The ninth is a spoiler at distance 4 from both codeword 0 and
codeword 1 (bits 0, 1, 3, 4 and 27) and at distance 8 from the rest: its own
two nearest train distances tie at 4, so it fails the forward ratio test and
never enters a match; but it sits between codeword 0's nearest query
(distance 3) and everything else, so in the reverse direction codeword 0's
two nearest distances are 3 and 4 and its ratio test fails. -/
def poolA : List Feat :=
  ⟨(0, 0), mkDesc [0, 1, 2, 24, 25, 26]⟩ ::
    (((List.range 7).map fun k =>
        ⟨(k + 1, (k + 1) * (k + 1)),
         mkDesc [3 * (k + 1), 3 * (k + 1) + 1, 3 * (k + 1) + 2, 24]⟩) ++
      [⟨(0, 0), mkDesc [0, 1, 3, 4, 27]⟩])

/-- C5: the scorer follows the specified pipeline exactly.  (1) Every
surviving candidate match pairs a query feature with its nearest train
feature, and survives only because `4·d₁ < 3·d₂` — the float test
`d₁ < 0.75·d₂` on integer Hamming distances — where `d₁` is the least
distance from the query descriptor to the train set and `d₂` the least
remaining distance; (2) with fewer than 8 survivors the score is 0 for every
homography fitter, i.e. no geometric fitting is consulted; (3) otherwise the
score is exactly the inlier count of the fitted homography (RANSAC, 5-pixel
threshold, the literal `cv2.findHomography(src, dst, cv2.RANSAC, 5.0)`
arguments), or 0 when no homography can be fit. -/
theorem c5_scorer_pipeline (l1 l2 : List Feat) (findH : HFit) :
    (∀ pr ∈ goodList l1 l2, pr.1 ∈ l1 ∧
       ∃ d1 d2, (distList pr.1.desc l2).min? = some d1 ∧
         ((distList pr.1.desc l2).eraseIdx
             ((distList pr.1.desc l2).indexOf d1)).min? = some d2 ∧
         (∀ q ∈ l2, d1 ≤ hamming pr.1.desc q.desc) ∧
         4 * d1 < 3 * d2) ∧
    ((goodList l1 l2).length < 8 →
       ∀ findH2 : HFit, score_pair_orb findH2 (some l1) (some l2) = 0) ∧
    (8 ≤ l1.length → 8 ≤ l2.length → 8 ≤ (goodList l1 l2).length →
       score_pair_orb findH (some l1) (some l2) =
         (match findH ((goodList l1 l2).map fun g => g.1.pt)
             ((goodList l1 l2).map fun g => g.2.pt) with
          | none => 0
          | some mask => maskCount mask)) := by
  refine ⟨?_, ?_, ?_⟩
  · intro pr hpr
    unfold goodList at hpr
    rcases List.mem_filterMap.mp hpr with ⟨a, ha, hsome⟩
    rcases hknn : knn2 a.desc l2 with _ | ⟨j, d1, d2⟩ <;> rw [hknn] at hsome
    · simp at hsome
    dsimp only at hsome
    by_cases hratio : 4 * d1 < 3 * d2
    · rw [if_pos hratio] at hsome
      have hpr' := Option.some.inj hsome
      obtain ⟨hmin, hj, hmin2⟩ := knn2_eq_some hknn
      have hfst : pr.1 = a := by rw [← hpr']
      refine ⟨by rw [hfst]; exact ha, d1, d2, ?_, ?_, ?_, hratio⟩
      · rw [hfst]
        exact hmin
      · rw [hfst]
        exact hmin2
      · intro q hq
        have hmem := (List.min?_eq_some_iff'.mp hmin).2
        rw [hfst]
        exact hmem _ (List.mem_map_of_mem _ hq)
    · rw [if_neg hratio] at hsome
      simp at hsome
  · intro hlt findH2
    simp only [score_pair_orb]
    split
    · rfl
    · rfl
  · intro h1 h2 hg
    simp only [score_pair_orb]
    rw [if_neg (by omega), if_neg (by omega)]

/-- Witness for `c5_scorer_pipeline` on the concrete query/train pools: both
sides have at least 8 features, 8 candidate matches survive the ratio test,
and the score equals the fitter's inlier count. -/
theorem c5_scorer_pipeline_witness :
    8 ≤ poolA.length ∧ 8 ≤ poolB.length ∧ 8 ≤ (goodList poolA poolB).length ∧
    score_pair_orb findHomographyId (some poolA) (some poolB) =
      (match findHomographyId ((goodList poolA poolB).map fun g => g.1.pt)
          ((goodList poolA poolB).map fun g => g.2.pt) with
       | none => 0
       | some mask => maskCount mask) :=
  ⟨by decide, by decide, by decide,
   (c5_scorer_pipeline poolA poolB findHomographyId).2.2 (by decide) (by decide) (by decide)⟩

/-! ## C6 — the pairwise score is not symmetric -/

/-- The symmetry property claimed by the specification, stated over the
exact-fit homography model (the direction-dependence exhibited below lives
entirely in the ratio test, not in the fitter, which is itself symmetric in
its two point lists). -/
def scorerSymmetric : Prop :=
  ∀ f1 f2 : Option (List Feat),
    score_pair_orb findHomographyId f1 f2 = score_pair_orb findHomographyId f2 f1

/-- C6 (counterexample): the Lowe ratio test is direction-dependent.  Scoring
`poolA` (9 queries) against `poolB` (8 codewords), the 8 genuine queries
survive the ratio test (3 against 9 for the first, 1 against 7 for the rest)
while the spoiler fails it (4 against 4), leaving exactly 8 matches whose
source and destination points coincide at the 8 distinct, non-collinear
`poolB` keypoints; the exact-fit homography (identity, fittable because the
points are in general position) yields 8 inliers, so the forward score is 8.
In the reverse direction codeword 0's two nearest query distances are 3 and
4, its ratio test fails (`4·3 < 3·4` is false), and only 7 candidates
survive — below the 8-survivor gate, so the reverse score is 0, not 8. -/
theorem c6_counterexample : ¬ scorerSymmetric := by
  intro h
  exact absurd (h (some poolA) (some poolB)) (by decide)

/-- The cached descriptor count of a feature set (`0` for `desc is None`). -/
def descLen : Option (List Feat) → Nat
  | none => 0
  | some l => l.length

/-- C6 (amended): symmetry does hold in the degenerate regime — whenever
either feature set has fewer than 8 descriptors both orders score 0 — and in
general the score is computed once per unordered pair (the assigner
enumerates `i < j` only), so no caller observes the direction-dependence of
the ratio test. -/
theorem c6_degenerate_symmetry (findH : HFit) (f1 f2 : Option (List Feat))
    (h : descLen f1 < 8 ∨ descLen f2 < 8) :
    score_pair_orb findH f1 f2 = 0 ∧ score_pair_orb findH f2 f1 = 0 := by
  rcases f1 with _ | l1 <;> rcases f2 with _ | l2
  · exact ⟨rfl, rfl⟩
  · exact ⟨rfl, rfl⟩
  · exact ⟨rfl, rfl⟩
  · simp only [descLen] at h
    constructor
    · simp only [score_pair_orb]
      rw [if_pos h]
    · simp only [score_pair_orb]
      rw [if_pos (Or.symm h)]

/-- Witness for `c6_degenerate_symmetry` at a one-feature set against the
eight-codeword pool. -/
theorem c6_degenerate_symmetry_witness :
    descLen (some [defaultFeat]) < 8 ∧
    score_pair_orb findHomographyId (some [defaultFeat]) (some poolB) = 0 ∧
    score_pair_orb findHomographyId (some poolB) (some [defaultFeat]) = 0 :=
  ⟨by decide,
   (c6_degenerate_symmetry findHomographyId (some [defaultFeat]) (some poolB)
      (Or.inl (by decide))).1,
   (c6_degenerate_symmetry findHomographyId (some [defaultFeat]) (some poolB)
      (Or.inl (by decide))).2⟩

/-! ## C9 — indexing inserts only complete triplets and skips all failures -/

/-- Dict insertion adds the new binding or keeps old ones. -/
theorem dictInsert_mem {x : String × HashEntry} {k : String} {v : HashEntry} :
    ∀ {l : List (String × HashEntry)}, x ∈ dictInsert k v l → x = (k, v) ∨ x ∈ l
  | [], h => by simpa [dictInsert] using h
  | (k', v') :: t, h => by
    rw [dictInsert] at h
    split at h
    · rcases List.mem_cons.mp h with h | h
      · exact Or.inl h
      · exact Or.inr (List.mem_cons_of_mem _ h)
    · rcases List.mem_cons.mp h with h | h
      · exact Or.inr (by rw [h]; exact List.mem_cons_self _ _)
      · rcases dictInsert_mem h with h | h
        · exact Or.inl h
        · exact Or.inr (List.mem_cons_of_mem _ h)

/-- Every binding of the per-folder loop comes from the accumulator or from a
successfully processed file of that folder. -/
theorem processFolder_mem {fs : FS} {folder : String} :
    ∀ {files : List String} {acc : List (String × HashEntry)} {x : String × HashEntry},
      x ∈ processFolder fs folder files acc →
      x ∈ acc ∨ ∃ f, processFile fs folder f = some x
  | [], acc, x, h => Or.inl (by simpa [processFolder] using h)
  | f :: fl, acc, x, h => by
    rw [processFolder, List.foldl_cons] at h
    have h' : x ∈ processFolder fs folder fl
        (match processFile fs folder f with
         | none => acc
         | some (k, v) => dictInsert k v acc) := h
    rcases processFolder_mem h' with hacc | hex
    · rcases hpf : processFile fs folder f with _ | kv
      · simp only [hpf] at hacc
        exact Or.inl hacc
      · obtain ⟨k, v⟩ := kv
        simp only [hpf] at hacc
        rcases dictInsert_mem hacc with heq | hmem
        · exact Or.inr ⟨f, by rw [hpf, heq]⟩
        · exact Or.inl hmem
    · exact Or.inr hex

/-- Every binding of the whole indexing pass comes from the accumulator or
from a successfully processed file of some (normalized, existing) folder. -/
theorem build_mem {fs : FS} :
    ∀ {data : List (String × List String)} {acc : List (String × HashEntry)}
      {x : String × HashEntry},
      x ∈ data.foldl (fun acc fd =>
        let folder := normalizeFolder fd.1
        if fs.pathExists folder then processFolder fs folder fd.2 acc else acc) acc →
      x ∈ acc ∨ ∃ folder file, processFile fs folder file = some x
  | [], _, _, h => Or.inl h
  | fd :: rest, acc, x, h => by
    rw [List.foldl_cons] at h
    rcases build_mem h with hacc | hex
    · dsimp only at hacc
      split at hacc
      · rcases processFolder_mem hacc with h1 | h1
        · exact Or.inl h1
        · obtain ⟨f, hf⟩ := h1
          exact Or.inr ⟨normalizeFolder fd.1, f, hf⟩
      · exact Or.inl hacc
    · exact Or.inr hex

/-- Soundness of the per-file step: a successful insertion certifies that all
three triplet files exist, that the png decoded, that the key is its digest,
and that the device sidecar obeys the fixed `_anon.dcm`-then-`.dcm` variant
order. -/
theorem processFile_sound {fs : FS} {folder file : String} {k : String} {e : HashEntry}
    (h : processFile fs folder file = some (k, e)) :
    fs.pathExists e.png ∧ fs.pathExists e.json ∧ fs.pathExists e.dicom ∧
    (∃ img, fs.openImg e.png = some img ∧ k = phashModel img) ∧
    e.png = joinPath folder file ∧
    e.json = joinPath folder (baseNameOf file ++ ".json") ∧
    (fs.pathExists (joinPath folder (baseNameOf file ++ "_anon.dcm")) →
        e.dicom = joinPath folder (baseNameOf file ++ "_anon.dcm")) ∧
    (¬ fs.pathExists (joinPath folder (baseNameOf file ++ "_anon.dcm")) →
        fs.pathExists (joinPath folder (baseNameOf file ++ ".dcm")) →
        e.dicom = joinPath folder (baseNameOf file ++ ".dcm")) := by
  simp only [processFile] at h
  by_cases hpng : fs.pathExists (joinPath folder file)
  case neg =>
    rw [if_pos hpng] at h
    simp at h
  rw [if_neg (not_not_intro hpng)] at h
  by_cases hA : fs.pathExists (joinPath folder (baseNameOf file ++ "_anon.dcm"))
  · rw [if_pos hA] at h
    by_cases htrip : (fs.pathExists (joinPath folder file) : Prop) ∧
        (fs.pathExists (joinPath folder (baseNameOf file ++ ".json")) : Prop) ∧
        (fs.pathExists (joinPath folder (baseNameOf file ++ "_anon.dcm")) : Prop)
    · rw [if_neg (not_not_intro htrip)] at h
      rcases hopen : fs.openImg (joinPath folder file) with _ | img <;> rw [hopen] at h
      · simp at h
      dsimp only at h
      injection h with h2
      injection h2 with hk he
      refine ⟨?_, ?_, ?_, ⟨img, ?_, hk.symm⟩, ?_, ?_, ?_, ?_⟩
      · rw [← he]
        exact htrip.1
      · rw [← he]
        exact htrip.2.1
      · rw [← he]
        exact htrip.2.2
      · rw [← he]
        exact hopen
      · rw [← he]
      · rw [← he]
      · intro hA2
        rw [← he]
      · intro hnA
        exact absurd hA hnA
    · rw [if_pos htrip] at h
      simp at h
  · rw [if_neg hA] at h
    by_cases hB : fs.pathExists (joinPath folder (baseNameOf file ++ ".dcm"))
    · rw [if_pos hB] at h
      by_cases htrip : (fs.pathExists (joinPath folder file) : Prop) ∧
          (fs.pathExists (joinPath folder (baseNameOf file ++ ".json")) : Prop) ∧
          (fs.pathExists (joinPath folder (baseNameOf file ++ ".dcm")) : Prop)
      · rw [if_neg (not_not_intro htrip)] at h
        rcases hopen : fs.openImg (joinPath folder file) with _ | img <;> rw [hopen] at h
        · simp at h
        dsimp only at h
        injection h with h2
        injection h2 with hk he
        refine ⟨?_, ?_, ?_, ⟨img, ?_, hk.symm⟩, ?_, ?_, ?_, ?_⟩
        · rw [← he]
          exact htrip.1
        · rw [← he]
          exact htrip.2.1
        · rw [← he]
          exact htrip.2.2
        · rw [← he]
          exact hopen
        · rw [← he]
        · rw [← he]
        · intro hA2
          exact absurd hA2 hA
        · intro hnA hB2
          rw [← he]
      · rw [if_pos htrip] at h
        simp at h
    · rw [if_neg hB] at h
      rw [if_pos (fun hc => hA hc.2.2)] at h
      simp at h

/-- C9: (1) every entry of the built index certifies a complete, decodable
triplet — its png, metadata and device-sidecar paths all exist, the png
decoded, and the key is the decoded image's digest; (2) the two
device-sidecar naming variants are tried in the fixed order `_anon.dcm`
first, plain `.dcm` second; (3) a folder that does not exist contributes
nothing and the remaining folders are processed exactly as if it were absent;
(4) a file that fails any existence, triplet or decode check contributes
nothing and its sibling files and folders are processed exactly as if it were
absent — no failure aborts the indexing pass. -/
theorem c9_indexing_skips (fs : FS) :
    (∀ data k e, (k, e) ∈ build_hash_index fs data →
        fs.pathExists e.png ∧ fs.pathExists e.json ∧ fs.pathExists e.dicom ∧
        ∃ img, fs.openImg e.png = some img ∧ k = phashModel img) ∧
    (∀ folder file k e, processFile fs folder file = some (k, e) →
        (fs.pathExists (joinPath folder (baseNameOf file ++ "_anon.dcm")) →
            e.dicom = joinPath folder (baseNameOf file ++ "_anon.dcm")) ∧
        (¬ fs.pathExists (joinPath folder (baseNameOf file ++ "_anon.dcm")) →
            fs.pathExists (joinPath folder (baseNameOf file ++ ".dcm")) →
            e.dicom = joinPath folder (baseNameOf file ++ ".dcm"))) ∧
    (∀ f files rest, ¬ fs.pathExists (normalizeFolder f) →
        build_hash_index fs ((f, files) :: rest) = build_hash_index fs rest) ∧
    (∀ f file files rest, processFile fs (normalizeFolder f) file = none →
        build_hash_index fs ((f, file :: files) :: rest) =
          build_hash_index fs ((f, files) :: rest)) := by
  refine ⟨?_, ?_, ?_, ?_⟩
  · intro data k e hmem
    unfold build_hash_index at hmem
    rcases build_mem hmem with hnil | ⟨folder, file, hpf⟩
    · simp at hnil
    · obtain ⟨h1, h2, h3, h4, _⟩ := processFile_sound hpf
      exact ⟨h1, h2, h3, h4⟩
  · intro folder file k e hpf
    obtain ⟨_, _, _, _, _, _, h7, h8⟩ := processFile_sound hpf
    exact ⟨h7, h8⟩
  · intro f files rest hmiss
    unfold build_hash_index
    simp only [List.foldl_cons]
    rw [if_neg hmiss]
  · intro f file files rest hnone
    unfold build_hash_index
    simp only [List.foldl_cons]
    congr 1
    by_cases hex : fs.pathExists (normalizeFolder f)
    · rw [if_pos hex, if_pos hex]
      unfold processFolder
      simp only [List.foldl_cons, hnone]
    · rw [if_neg hex, if_neg hex]

/-- A concrete file system with one complete triplet in folder `d` (and no
`missing` folder). -/
def fsW : FS :=
  ⟨fun s => s == "d" || s == "d/a.png" || s == "d/a.json" || s == "d/a_anon.dcm",
   fun s => if s == "d/a.png" then some imgBlack else none⟩

/-- A corpus inventory naming the good folder and a non-existent folder. -/
def dataW : List (String × List String) := [("d", ["a.png"]), ("missing", ["b.png"])]

/-- The entry that indexing the `fsW` corpus produces. -/
def entryW : HashEntry := ⟨"a", "d/a.png", "d/a.json", "d/a_anon.dcm", "d/a.png"⟩

/-- Witness for `c9_indexing_skips`: the complete triplet of the concrete
corpus is indexed with all three files present, and the non-existent folder
contributes nothing. -/
theorem c9_indexing_skips_witness :
    (phashModel imgBlack, entryW) ∈ build_hash_index fsW dataW ∧
    (fsW.pathExists entryW.png ∧ fsW.pathExists entryW.json ∧ fsW.pathExists entryW.dicom ∧
      ∃ img, fsW.openImg entryW.png = some img ∧ phashModel imgBlack = phashModel img) ∧
    ¬ fsW.pathExists (normalizeFolder "missing") ∧
    build_hash_index fsW [("missing", ["b.png"])] = build_hash_index fsW [] :=
  ⟨by decide,
   (c9_indexing_skips fsW).1 dataW (phashModel imgBlack) entryW (by decide),
   by decide,
   (c9_indexing_skips fsW).2.2.1 "missing" ["b.png"] [] (by decide)⟩
